import Mathlib

/-!
Verification development for the suidex-lp-deposit-bot repository.

The definitions below are a shallow embedding of the TypeScript source:

* `normalizeType`, `isTargetPool` — src/blockchain.ts, `EventListener.isTargetPool`
  (lines 204-221).  The two chained `String.replace` calls with global regexes
  `/0x/g` and `/\b0+(\d+)\b/g` are modelled character-exactly on `List Char`.
* `processBatch`, `pollCycle`, `runPoll` — src/blockchain.ts,
  `EventListener.pollEvents` (lines 77-144) together with `handleEvent`
  (lines 146-202).  Transaction digests are opaque strings used only for
  equality tests in the `Set`, so the model is generic over a digest type
  with decidable equality.  The JavaScript `Set` keeps first-insertion order
  and `Array.from` enumerates it in that order, so it is modelled as a
  duplicate-free `List` in insertion order.  A fetch that throws is an
  `Except.error` input; the `catch` block makes the cycle a no-op then.
* `calculateLPValue` and friends — src/blockchain.ts, `PriceOracle.calculateLPValue`
  (lines 268-292).  The source computes with IEEE doubles; the claims only
  evaluate it at inputs where every intermediate double operation is exact
  (powers of ten, small integers, and fractions with small power-of-two
  denominators), so the arithmetic is embedded over `ℚ` with the exact same
  order of operations.
* `updateLeaderboard` — src/database.ts, `updateLeaderboard` (lines 210-253).
  The MongoDB collection is a list of entries in insertion order; `findOne`
  and `updateOne` act on the first entry matching the filter, `insertOne`
  appends, and `countDocuments` counts matching entries.  The `lastUpdated`
  and `createdAt` timestamps play no role in any claim and are omitted.
* `handleStakeEvent` — src/index.ts, `handleStakeEvent` (lines 68-125).
  The oracle result is passed in as the `usd` argument (the oracle itself is
  modelled separately); the formatted `lpAmount` display string inside the
  alert is presentation only and omitted.
-/

/-- Character class of the JavaScript regex `\w` (`[A-Za-z0-9_]`), which is
what the word boundary `\b` is defined from. -/
def isWordChar (c : Char) : Bool := c.isAlphanum || c == '_'

/-- First replace of `normalizeType` in src/blockchain.ts line 207:
`.replace(/0x/g, '')` removes every occurrence of the two-character
substring `0x`, scanning left to right without rescanning the result. -/
def removeAll0x : List Char → List Char
  | [] => []
  | [c] => [c]
  | c1 :: c2 :: rest =>
    if c1 = '0' ∧ c2 = 'x' then removeAll0x rest
    else c1 :: removeAll0x (c2 :: rest)

/-- Action of the regex `\b0+(\d+)\b` with replacement `$1` on one maximal
word-character run.  The regex matches the run exactly when the run consists
only of digits, starts with `0` and has at least two characters (`0+` and
`\d+` each need one); the replacement keeps the last run of the match, which
amounts to dropping leading zeros but keeping at least one digit. -/
def fixToken (tok : List Char) : List Char :=
  if tok.all Char.isDigit ∧ 2 ≤ tok.length ∧ tok.head? = some '0' then
    let t := tok.dropWhile (fun c => c = '0')
    if t.isEmpty then ['0'] else t
  else tok

/-- Scanner for the second replace: `acc` holds the current word-character
run in reverse.  When the run ends (at a non-word character or the end of
the string) it is a maximal `\w` run, i.e. delimited by `\b`, and `fixToken`
is applied to it. -/
def stripZeroRunsAux (acc : List Char) : List Char → List Char
  | [] => fixToken acc.reverse
  | c :: rest =>
    if isWordChar c then stripZeroRunsAux (c :: acc) rest
    else fixToken acc.reverse ++ c :: stripZeroRunsAux [] rest

/-- Second replace of `normalizeType` in src/blockchain.ts line 208:
`.replace(/\b0+(\d+)\b/g, '$1')`.  Word boundaries only occur at the edges
of maximal `\w` runs, so the string is scanned run by run and `fixToken`
applied to each run. -/
def stripZeroRuns (l : List Char) : List Char := stripZeroRunsAux [] l

/-- The `normalizeType` helper of src/blockchain.ts lines 205-209: remove all
`0x` occurrences, then strip leading zeros of all-digit word runs. -/
def normalizeType (s : String) : String := ⟨stripZeroRuns (removeAll0x s.data)⟩

/-- The LP type tags of the three configured pools (`PAIRS.VICTORY_SUI.lpType`,
`PAIRS.VICTORY_USDC.lpType`, `PAIRS.BTC_VICTORY.lpType` in src/config.ts);
they are assembled from environment variables, so the model is parameterized
by them. -/
structure PairsConfig where
  victorySuiLpType : String
  victoryUsdcLpType : String
  btcVictoryLpType : String

/-- `EventListener.isTargetPool` of src/blockchain.ts lines 204-221. -/
def isTargetPool (cfg : PairsConfig) (poolType : String) : Bool :=
  normalizeType poolType == normalizeType cfg.victorySuiLpType ||
  normalizeType poolType == normalizeType cfg.victoryUsdcLpType ||
  normalizeType poolType == normalizeType cfg.btcVictoryLpType

/-- Normalization as the specification words it: strip the `0x` prefix and
strip the leading zeros.  This is the refinement reference for claim C4 and
is deliberately written from the words of the spec, not from the code. -/
def specNormalize (s : String) : String :=
  let l := s.data
  let l1 := if l.take 2 = ['0', 'x'] then l.drop 2 else l
  ⟨l1.dropWhile (fun c => c = '0')⟩

/-- One raw event as consumed by `pollEvents`: the transaction digest
`event.id.txDigest`, the source timestamp `event.timestampMs` and the
`parsedJson.pool_type` string.  The remaining `parsedJson` fields (staker,
amount, timestamp) are forwarded to the callback unchanged and play no role
in any claim, so they are not carried here.  Digests are opaque identifiers
used only in equality tests, hence the generic digest type. -/
structure RawEvent (δ : Type) where
  txDigest : δ
  timestampMs : ℕ
  pool_type : String
deriving DecidableEq

/-- The body of the `for` loop of `pollEvents` (src/blockchain.ts lines
103-124) over a list of events in processing order, starting from the seen
set `seen` (a duplicate-free list in first-insertion order).  Returns the
seen set after the loop and the list of events passed to the stake callback
(`handleEvent` invokes the callback exactly for target-pool events). -/
def processBatch {δ : Type} [DecidableEq δ] (cfg : PairsConfig) (start : ℕ) :
    List δ → List (RawEvent δ) → List δ × List (RawEvent δ)
  | seen, [] => (seen, [])
  | seen, e :: rest =>
    if e.txDigest ∈ seen then
      processBatch cfg start seen rest
    else
      let seen1 := seen ++ [e.txDigest]
      if e.timestampMs ≤ start then
        processBatch cfg start seen1 rest
      else if isTargetPool cfg e.pool_type then
        let r := processBatch cfg start seen1 rest
        (r.1, e :: r.2)
      else
        processBatch cfg start seen1 rest

/-- Result of one `pollEvents` invocation: the new seen set, the events
emitted downstream, and whether the cleanup branch ran (observable as the
`🧹 Cleaned up seen set` log line of src/blockchain.ts line 136). -/
structure CycleResult (δ : Type) where
  seen : List δ
  emitted : List (RawEvent δ)
  cleaned : Bool
deriving DecidableEq

/-- One `pollEvents` cycle (src/blockchain.ts lines 77-144).  The fetch
result is the input: `Except.error` is a throwing `queryEvents` call, whose
`catch` leaves all state untouched; an empty result returns early; otherwise
the fetched newest-first data is reversed to oldest-first, fed through the
loop, and the seen set is truncated to its most recent 500 entries when its
size exceeds 1000 (`Array.from` + `slice(-500)` on an insertion-ordered set
keep the last 500 inserted). -/
def pollCycle {δ : Type} [DecidableEq δ] (cfg : PairsConfig) (start : ℕ)
    (seen : List δ) (fetch : Except Unit (List (RawEvent δ))) : CycleResult δ :=
  match fetch with
  | Except.error _ => ⟨seen, [], false⟩
  | Except.ok data =>
    if data.isEmpty then ⟨seen, [], false⟩
    else
      let p := processBatch cfg start seen data.reverse
      if 1000 < p.1.length then
        ⟨p.1.drop (p.1.length - 500), p.2, true⟩
      else
        ⟨p.1, p.2, false⟩

/-- A sequence of poll cycles driven by the 5-second timer: the state (seen
set) threads from one cycle to the next, emissions accumulate in order, and
`cleaned` records whether any cycle ran the cleanup. -/
def runPoll {δ : Type} [DecidableEq δ] (cfg : PairsConfig) (start : ℕ)
    (seen : List δ) : List (Except Unit (List (RawEvent δ))) → CycleResult δ
  | [] => ⟨seen, [], false⟩
  | f :: fs =>
    let c := pollCycle cfg start seen f
    let r := runPoll cfg start c.seen fs
    ⟨r.seen, c.emitted ++ r.emitted, c.cleaned || r.cleaned⟩

/-- Number of emissions carrying digest `d` in a run. -/
def countEmitted {δ : Type} [DecidableEq δ] (r : CycleResult δ) (d : δ) : ℕ :=
  r.emitted.countP (fun e => e.txDigest == d)

/-- A concrete pool configuration used by the concrete scenarios below; the
three LP type tags are distinct and already normalized. -/
def pairsABC : PairsConfig := ⟨"a", "b", "c"⟩

/-- Event number `n` of the replay scenario: digest `n`, emitted one
millisecond after a bot start time of `0`, staked into the first configured
pool of `pairsABC`. -/
def evNat (n : ℕ) : RawEvent ℕ := ⟨n, 1, "a"⟩

/-- Fetch result number `j` of the replay scenario: the 50 events numbered
`50*j` to `50*j + 49`, returned newest first exactly as the RPC call with
`order: descending, limit: 50` does. -/
def fetchBlock (j : ℕ) : Except Unit (List (RawEvent ℕ)) :=
  Except.ok (((List.range' (50 * j) 50).map evNat).reverse)

/-- The replay scenario refuting the unconditional at-most-once claim:
21 poll cycles of 50 fresh events each drive the seen set to 1050 entries,
the cleanup at the end of cycle 21 evicts the oldest 550 digests (digest 0
among them), and a final cycle replays event 0, which is then emitted a
second time. -/
def ceFetches : List (Except Unit (List (RawEvent ℕ))) :=
  (List.range 20).map fetchBlock ++ [fetchBlock 20, Except.ok [evNat 0]]

/-- A raw reserve amount divided by `Math.pow(10, decimals)`
(src/blockchain.ts lines 277-278). -/
def reserveDecimal (reserve : ℚ) (decimals : ℕ) : ℚ := reserve / 10 ^ decimals

/-- `totalPoolValue` of src/blockchain.ts lines 280-282: the USD value of the
two reserves at the given per-token USD prices. -/
def totalPoolValue (reserve0 reserve1 : ℚ) (dec0 dec1 : ℕ) (p0 p1 : ℚ) : ℚ :=
  reserveDecimal reserve0 dec0 * p0 + reserveDecimal reserve1 dec1 * p1

/-- `lpTokenPrice` of src/blockchain.ts lines 284-285: pool USD value divided
by `totalSupply / 1e9`. -/
def lpTokenPrice (reserve0 reserve1 totalSupply : ℚ) (dec0 dec1 : ℕ)
    (p0 p1 : ℚ) : ℚ :=
  totalPoolValue reserve0 reserve1 dec0 dec1 p0 p1 / (totalSupply / 10 ^ 9)

/-- `PriceOracle.calculateLPValue` of src/blockchain.ts lines 268-292, as a
function of the fetched reserves, the two token decimal counts, the two
resolved token prices and the LP amount: `(lpAmount / 1e9) * lpTokenPrice`. -/
def calculateLPValue (reserve0 reserve1 totalSupply : ℚ) (dec0 dec1 : ℕ)
    (p0 p1 : ℚ) (lpAmount : ℚ) : ℚ :=
  lpAmount / 10 ^ 9 * lpTokenPrice reserve0 reserve1 totalSupply dec0 dec1 p0 p1

/-- One element of a leaderboard entry's `deposits` array
(src/database.ts lines 230-232). -/
structure LBDeposit where
  pool : String
  usd : ℚ
  txDigest : String
deriving DecidableEq

/-- One document of the `leaderboard` collection (src/database.ts lines
119-125); `lastUpdated` is dropped because no claim observes it. -/
structure LBEntry where
  wallet : String
  totalUSD : ℚ
  deposits : List LBDeposit
  competitionId : String
deriving DecidableEq

/-- The MongoDB filter `{ wallet, competitionId }` used by `updateLeaderboard`. -/
def lbKey (wallet competitionId : String) (e : LBEntry) : Bool :=
  e.wallet == wallet && e.competitionId == competitionId

/-- MongoDB `updateOne`: rewrite the first document matching the filter. -/
def updateFirst {α : Type} (p : α → Bool) (f : α → α) : List α → List α
  | [] => []
  | e :: rest => if p e then f e :: rest else e :: updateFirst p f rest

/-- `updateLeaderboard` of src/database.ts lines 210-253: read the existing
entry for `(wallet, competitionId)`; update it additively or insert a fresh
entry; return `1 +` the number of entries of the competition whose
`totalUSD` strictly exceeds the updated total (computed from the pre-update
read, exactly as the source does). -/
def updateLeaderboard (db : List LBEntry) (wallet poolName : String)
    (usdValue : ℚ) (txDigest competitionId : String) : List LBEntry × ℕ :=
  match db.find? (lbKey wallet competitionId) with
  | some existing =>
    let newBoard := updateFirst (lbKey wallet competitionId)
      (fun e => { e with
        totalUSD := existing.totalUSD + usdValue,
        deposits := e.deposits ++ [⟨poolName, usdValue, txDigest⟩] }) db
    let rank := newBoard.countP (fun e =>
      e.competitionId == competitionId &&
        decide (existing.totalUSD + usdValue < e.totalUSD))
    (newBoard, rank + 1)
  | none =>
    let newBoard := db ++
      [⟨wallet, usdValue, [⟨poolName, usdValue, txDigest⟩], competitionId⟩]
    let rank := newBoard.countP (fun e =>
      e.competitionId == competitionId && decide (usdValue < e.totalUSD))
    (newBoard, rank + 1)

/-- The total the wallet's entry holds right after an update:
`existing.totalUSD + usdValue` when an entry existed, `usdValue` otherwise
(this mirrors `existing ? existing.totalUSD + usdValue : usdValue` of
src/database.ts line 249). -/
def updatedTotal (db : List LBEntry) (wallet competitionId : String)
    (usdValue : ℚ) : ℚ :=
  match db.find? (lbKey wallet competitionId) with
  | some existing => existing.totalUSD + usdValue
  | none => usdValue

/-- The fields of the `StakeEvent` callback payload that `handleStakeEvent`
reads (src/blockchain.ts lines 249-256). -/
structure StakePayload where
  staker : String
  poolName : String
  poolType : String
  lpAmount : String
  timestamp : ℕ
  txDigest : String
deriving DecidableEq

/-- One document of the `deposits` collection as inserted by `addDeposit`
(src/index.ts lines 86-95); `createdAt` is dropped. -/
structure DepositRec where
  wallet : String
  poolName : String
  poolType : String
  lpAmount : String
  usdValue : ℚ
  timestamp : ℕ
  txDigest : String
  competitionId : String
deriving DecidableEq

/-- The `sendDepositAlert` payload of src/index.ts lines 112-120, minus the
display-formatted LP amount string. -/
structure Alert where
  wallet : String
  poolName : String
  usdValue : ℚ
  timestamp : ℕ
  txDigest : String
  rank : Option ℕ
deriving DecidableEq

/-- The persistent state `handleStakeEvent` can touch: the `deposits`
collection and the `leaderboard` collection. -/
structure AppState where
  deposits : List DepositRec
  leaderboard : List LBEntry
deriving DecidableEq

/-- Result of one `handleStakeEvent` call: the new persistent state, the
alert sent (if any) and, when `updateLeaderboard` was invoked, the rank it
returned (`none` means the ranker was not called). -/
structure HandleResult where
  state : AppState
  alert : Option Alert
  rankerRank : Option ℕ
deriving DecidableEq

/-- `handleStakeEvent` of src/index.ts lines 68-125 as a function of the
oracle's USD valuation `usd`, the current competition id (`none` when
`getCurrentCompetition()` returns null) and the configured
`CONFIG.MIN_DEPOSIT_USD` floor: below the floor it returns before any
persistence call; otherwise it appends the deposit, updates the leaderboard
when a competition is active, and sends the alert. -/
def handleStakeEvent (minDepositUsd usd : ℚ) (competition : Option String)
    (ev : StakePayload) (st : AppState) : HandleResult :=
  if usd < minDepositUsd then ⟨st, none, none⟩
  else
    let competitionId := competition.getD "tracking_only"
    let deposits1 := st.deposits ++
      [⟨ev.staker, ev.poolName, ev.poolType, ev.lpAmount, usd, ev.timestamp,
        ev.txDigest, competitionId⟩]
    match competition with
    | some cid =>
      let r := updateLeaderboard st.leaderboard ev.staker ev.poolName usd
        ev.txDigest cid
      ⟨⟨deposits1, r.1⟩,
        some ⟨ev.staker, ev.poolName, usd, ev.timestamp, ev.txDigest, some r.2⟩,
        some r.2⟩
    | none =>
      ⟨⟨deposits1, st.leaderboard⟩,
        some ⟨ev.staker, ev.poolName, usd, ev.timestamp, ev.txDigest, none⟩,
        none⟩

/-! ### Lemmas about the event listener state machine -/

lemma processBatch_cons {δ : Type} [DecidableEq δ] (cfg : PairsConfig)
    (start : ℕ) (seen : List δ) (e : RawEvent δ) (rest : List (RawEvent δ)) :
    processBatch cfg start seen (e :: rest) =
      if e.txDigest ∈ seen then processBatch cfg start seen rest
      else if e.timestampMs ≤ start then
        processBatch cfg start (seen ++ [e.txDigest]) rest
      else if isTargetPool cfg e.pool_type then
        ((processBatch cfg start (seen ++ [e.txDigest]) rest).1,
          e :: (processBatch cfg start (seen ++ [e.txDigest]) rest).2)
      else processBatch cfg start (seen ++ [e.txDigest]) rest := rfl

lemma processBatch_seen_mono {δ : Type} [DecidableEq δ] {cfg : PairsConfig}
    {start : ℕ} {d : δ} :
    ∀ (evs : List (RawEvent δ)) (seen : List δ), d ∈ seen →
      d ∈ (processBatch cfg start seen evs).1 := by
  intro evs
  induction evs with
  | nil => intro seen h; simpa [processBatch] using h
  | cons e rest ih =>
    intro seen h
    rw [processBatch_cons]
    have h2 : d ∈ seen ++ [e.txDigest] := by simp [h]
    by_cases h1 : e.txDigest ∈ seen
    · simpa [h1] using ih seen h
    · by_cases h3 : e.timestampMs ≤ start
      · simpa [h1, h3] using ih _ h2
      · by_cases h4 : isTargetPool cfg e.pool_type
        · simpa [h1, h3, h4] using ih _ h2
        · simpa [h1, h3, h4] using ih _ h2

lemma processBatch_emitted_ts {δ : Type} [DecidableEq δ] {cfg : PairsConfig}
    {start : ℕ} {e : RawEvent δ} :
    ∀ (evs : List (RawEvent δ)) (seen : List δ),
      e ∈ (processBatch cfg start seen evs).2 → start < e.timestampMs := by
  intro evs
  induction evs with
  | nil => intro seen h; simp [processBatch] at h
  | cons f rest ih =>
    intro seen h
    rw [processBatch_cons] at h
    by_cases h1 : f.txDigest ∈ seen
    · simp only [if_pos h1] at h
      exact ih seen h
    · simp only [if_neg h1] at h
      by_cases h3 : f.timestampMs ≤ start
      · simp only [if_pos h3] at h
        exact ih _ h
      · simp only [if_neg h3] at h
        by_cases h4 : isTargetPool cfg f.pool_type
        · simp only [if_pos h4, List.mem_cons] at h
          rcases h with h | h
          · subst h; exact Nat.lt_of_not_le h3
          · exact ih _ h
        · simp only [if_neg h4] at h
          exact ih _ h

lemma processBatch_marks {δ : Type} [DecidableEq δ] {cfg : PairsConfig}
    {start : ℕ} :
    ∀ (evs : List (RawEvent δ)) (seen : List δ) (e : RawEvent δ), e ∈ evs →
      e.txDigest ∈ (processBatch cfg start seen evs).1 := by
  intro evs
  induction evs with
  | nil => intro seen e h; simp at h
  | cons f rest ih =>
    intro seen e h
    rw [processBatch_cons]
    rcases List.mem_cons.mp h with h | h
    · subst h
      by_cases h1 : e.txDigest ∈ seen
      · simpa [h1] using processBatch_seen_mono rest seen h1
      · have h2 : e.txDigest ∈ seen ++ [e.txDigest] := by simp
        by_cases h3 : e.timestampMs ≤ start
        · simpa [h1, h3] using processBatch_seen_mono rest _ h2
        · by_cases h4 : isTargetPool cfg e.pool_type
          · simpa [h1, h3, h4] using processBatch_seen_mono rest _ h2
          · simpa [h1, h3, h4] using processBatch_seen_mono rest _ h2
    · by_cases h1 : f.txDigest ∈ seen
      · simpa [h1] using ih seen e h
      · by_cases h3 : f.timestampMs ≤ start
        · simpa [h1, h3] using ih _ e h
        · by_cases h4 : isTargetPool cfg f.pool_type
          · simpa [h1, h3, h4] using ih _ e h
          · simpa [h1, h3, h4] using ih _ e h

lemma pollCycle_emitted_ts {δ : Type} [DecidableEq δ] {cfg : PairsConfig}
    {start : ℕ} {e : RawEvent δ} (seen : List δ)
    (fetch : Except Unit (List (RawEvent δ)))
    (h : e ∈ (pollCycle cfg start seen fetch).emitted) :
    start < e.timestampMs := by
  match fetch with
  | Except.error u => simp [pollCycle] at h
  | Except.ok data =>
    by_cases hD : data.isEmpty
    · simp [pollCycle, hD] at h
    · simp only [pollCycle, hD, Bool.false_eq_true, if_false] at h
      by_cases hL : 1000 < (processBatch cfg start seen data.reverse).1.length
      · simp only [if_pos hL] at h
        exact processBatch_emitted_ts data.reverse seen h
      · simp only [if_neg hL] at h
        exact processBatch_emitted_ts data.reverse seen h

lemma runPoll_emitted_ts {δ : Type} [DecidableEq δ] {cfg : PairsConfig}
    {start : ℕ} {e : RawEvent δ} :
    ∀ (fetches : List (Except Unit (List (RawEvent δ)))) (seen : List δ),
      e ∈ (runPoll cfg start seen fetches).emitted → start < e.timestampMs := by
  intro fetches
  induction fetches with
  | nil => intro seen h; simp [runPoll] at h
  | cons f fs ih =>
    intro seen h
    simp only [runPoll, List.mem_append] at h
    rcases h with h | h
    · exact pollCycle_emitted_ts seen f h
    · exact ih _ h

/-- Claim C6: an event whose source timestamp is at or before the recorded
bot start time is never passed to the stake callback by any sequence of poll
cycles, even when its digest was not in the seen set; and every event of a
processed batch ends with its digest marked in the seen set (before the
bounded-memory cleanup of the cycle), whether it was emitted or skipped. -/
theorem stale_events_never_emitted {δ : Type} [DecidableEq δ]
    (cfg : PairsConfig) (start : ℕ) (seen seen2 : List δ)
    (fetches : List (Except Unit (List (RawEvent δ))))
    (data : List (RawEvent δ)) (e e2 : RawEvent δ)
    (hold : e.timestampMs ≤ start) (he2 : e2 ∈ data) :
    e ∉ (runPoll cfg start seen fetches).emitted ∧
    e2.txDigest ∈ (processBatch cfg start seen2 data).1 := by
  constructor
  · intro hmem
    exact absurd (runPoll_emitted_ts fetches seen hmem) (Nat.not_lt.mpr hold)
  · exact processBatch_marks data seen2 e2 he2

/-- Claim C7: a failing event fetch makes the poll cycle a no-op: the seen
set is untouched, nothing is emitted, the cleanup does not run (the error is
caught, so the process survives), and the whole run behaves exactly as if
the failed cycle had not happened, so the next timer tick starts from the
same state. -/
theorem fetch_error_cycle_is_noop {δ : Type} [DecidableEq δ]
    (cfg : PairsConfig) (start : ℕ) (seen : List δ) (u : Unit)
    (pre post : List (Except Unit (List (RawEvent δ)))) :
    pollCycle cfg start seen (Except.error u) = ⟨seen, [], false⟩ ∧
    runPoll cfg start seen (pre ++ Except.error u :: post) =
      runPoll cfg start seen (pre ++ post) := by
  refine ⟨rfl, ?_⟩
  induction pre generalizing seen with
  | nil => simp [runPoll, pollCycle]
  | cons f fs ih => simp [runPoll, ih]

lemma processBatch_count {δ : Type} [DecidableEq δ] {cfg : PairsConfig}
    {start : ℕ} {d : δ} :
    ∀ (evs : List (RawEvent δ)) (seen : List δ),
      ((processBatch cfg start seen evs).2.countP (fun x => x.txDigest == d) ≤ 1)
      ∧ (d ∈ seen →
          (processBatch cfg start seen evs).2.countP (fun x => x.txDigest == d) = 0)
      ∧ (0 < (processBatch cfg start seen evs).2.countP (fun x => x.txDigest == d) →
          d ∈ (processBatch cfg start seen evs).1) := by
  intro evs
  induction evs with
  | nil =>
    intro seen
    simp [processBatch]
  | cons e rest ih =>
    intro seen
    rw [processBatch_cons]
    by_cases h1 : e.txDigest ∈ seen
    · simpa [h1] using ih seen
    · by_cases h3 : e.timestampMs ≤ start
      · simp only [if_neg h1, if_pos h3]
        refine ⟨(ih _).1, fun hd => (ih _).2.1 (by simp [hd]), (ih _).2.2⟩
      · by_cases h4 : isTargetPool cfg e.pool_type
        · simp only [if_neg h1, if_neg h3, if_pos h4]
          by_cases dd : e.txDigest = d
          · have hz : List.countP (fun x : RawEvent δ => x.txDigest == d)
                (processBatch cfg start (seen ++ [e.txDigest]) rest).2 = 0 :=
              (ih _).2.1 (by simp [dd])
            have hcons : List.countP (fun x : RawEvent δ => x.txDigest == d)
                (e :: (processBatch cfg start (seen ++ [e.txDigest]) rest).2) = 1 := by
              rw [List.countP_cons, hz]
              simp [dd]
            refine ⟨?_, fun hd => absurd (dd ▸ hd) h1, fun _ => ?_⟩
            · simp [hcons]
            · exact processBatch_seen_mono rest _ (by simp [dd])
          · have hcons : List.countP (fun x : RawEvent δ => x.txDigest == d)
                (e :: (processBatch cfg start (seen ++ [e.txDigest]) rest).2) =
                List.countP (fun x : RawEvent δ => x.txDigest == d)
                  (processBatch cfg start (seen ++ [e.txDigest]) rest).2 := by
              rw [List.countP_cons]
              simp [dd]
            rw [hcons]
            refine ⟨(ih _).1, fun hd => (ih _).2.1 (by simp [hd]), (ih _).2.2⟩
        · simp only [if_neg h1, if_neg h3, if_neg h4]
          refine ⟨(ih _).1, fun hd => (ih _).2.1 (by simp [hd]), (ih _).2.2⟩

lemma pollCycle_count {δ : Type} [DecidableEq δ] {cfg : PairsConfig}
    {start : ℕ} {d : δ} (seen : List δ)
    (fetch : Except Unit (List (RawEvent δ)))
    (h : (pollCycle cfg start seen fetch).cleaned = false) :
    ((pollCycle cfg start seen fetch).emitted.countP (fun x => x.txDigest == d) ≤ 1)
    ∧ (d ∈ seen →
        (pollCycle cfg start seen fetch).emitted.countP (fun x => x.txDigest == d) = 0)
    ∧ (d ∈ seen → d ∈ (pollCycle cfg start seen fetch).seen)
    ∧ (0 < (pollCycle cfg start seen fetch).emitted.countP (fun x => x.txDigest == d) →
        d ∈ (pollCycle cfg start seen fetch).seen) := by
  match fetch with
  | Except.error u => simp [pollCycle]
  | Except.ok data =>
    by_cases hD : data.isEmpty
    · simp [pollCycle, hD]
    · by_cases hL : 1000 < (processBatch cfg start seen data.reverse).1.length
      · exfalso
        simp [pollCycle, hD, hL] at h
      · simp only [pollCycle, hD, Bool.false_eq_true, if_false, if_neg hL]
        refine ⟨(processBatch_count data.reverse seen).1,
          (processBatch_count data.reverse seen).2.1,
          fun hd => processBatch_seen_mono data.reverse seen hd,
          (processBatch_count data.reverse seen).2.2⟩

lemma runPoll_count {δ : Type} [DecidableEq δ] {cfg : PairsConfig}
    {start : ℕ} {d : δ} :
    ∀ (fetches : List (Except Unit (List (RawEvent δ)))) (seen : List δ),
      (runPoll cfg start seen fetches).cleaned = false →
      (countEmitted (runPoll cfg start seen fetches) d ≤ 1)
      ∧ (d ∈ seen → countEmitted (runPoll cfg start seen fetches) d = 0)
      ∧ (d ∈ seen → d ∈ (runPoll cfg start seen fetches).seen)
      ∧ (0 < countEmitted (runPoll cfg start seen fetches) d →
          d ∈ (runPoll cfg start seen fetches).seen) := by
  intro fetches
  induction fetches with
  | nil =>
    intro seen h
    simp [runPoll, countEmitted]
  | cons f fs ih =>
    intro seen h
    simp only [runPoll, Bool.or_eq_false_iff] at h ⊢
    obtain ⟨hc, hr⟩ := h
    have C := @pollCycle_count δ _ cfg start d seen f hc
    have R := ih (pollCycle cfg start seen f).seen hr
    simp only [countEmitted, List.countP_append] at R C ⊢
    constructor
    · rcases Nat.eq_zero_or_pos ((pollCycle cfg start seen f).emitted.countP
        (fun x => x.txDigest == d)) with hz | hp
      · omega
      · have hmem := C.2.2.2 hp
        have := R.2.1 hmem
        omega
    · refine ⟨fun hd => ?_, fun hd => ?_, fun hp => ?_⟩
      · have h0 := C.2.1 hd
        have h0r := R.2.1 (C.2.2.1 hd)
        omega
      · exact R.2.2.1 (C.2.2.1 hd)
      · rcases Nat.eq_zero_or_pos ((pollCycle cfg start seen f).emitted.countP
          (fun x => x.txDigest == d)) with hz | hq
        · exact R.2.2.2 (by omega)
        · exact R.2.2.1 (C.2.2.2 hq)

/-- Claim C1 (amended): in every run of poll cycles in which the
bounded-memory cleanup never fires (the seen set never exceeds 1000
entries), every transaction digest is passed to the stake callback at most
once — replaying the same raw event again is skipped as a duplicate.  In
general the guarantee holds only until a cleanup evicts the digest: the
cleanup makes an evicted digest indistinguishable from an unseen one, and a
replay after eviction is emitted a second time (see the counterexample). -/
theorem emitted_at_most_once_of_no_cleanup {δ : Type} [DecidableEq δ]
    (cfg : PairsConfig) (start : ℕ) (seen : List δ)
    (fetches : List (Except Unit (List (RawEvent δ)))) (d : δ)
    (h : (runPoll cfg start seen fetches).cleaned = false) :
    countEmitted (runPoll cfg start seen fetches) d ≤ 1 :=
  (runPoll_count fetches seen h).1

lemma processBatch_fresh {δ : Type} [DecidableEq δ] {cfg : PairsConfig}
    {start : ℕ} :
    ∀ (evs : List (RawEvent δ)) (seen : List δ),
      (evs.map RawEvent.txDigest).Nodup →
      (∀ e ∈ evs, e.txDigest ∉ seen) →
      (∀ e ∈ evs, start < e.timestampMs) →
      (∀ e ∈ evs, isTargetPool cfg e.pool_type = true) →
      processBatch cfg start seen evs = (seen ++ evs.map RawEvent.txDigest, evs) := by
  intro evs
  induction evs with
  | nil => intro seen _ _ _ _; simp [processBatch]
  | cons e rest ih =>
    intro seen hnd hfresh hts htgt
    have h1 : e.txDigest ∉ seen := hfresh e (by simp)
    have h3 : ¬ e.timestampMs ≤ start :=
      Nat.not_le.mpr (hts e (by simp))
    have h4 : isTargetPool cfg e.pool_type = true := htgt e (by simp)
    rw [List.map_cons, List.nodup_cons] at hnd
    have hnd' : (rest.map RawEvent.txDigest).Nodup := hnd.2
    have hhead : e.txDigest ∉ rest.map RawEvent.txDigest := hnd.1
    have hfresh' : ∀ f ∈ rest, f.txDigest ∉ seen ++ [e.txDigest] := by
      intro f hf
      simp only [List.mem_append, List.mem_singleton]
      rintro (hc | hc)
      · exact hfresh f (by simp [hf]) hc
      · exact hhead (hc ▸ List.mem_map_of_mem RawEvent.txDigest hf)
    have hrec := ih (seen ++ [e.txDigest]) hnd' hfresh'
      (fun f hf => hts f (by simp [hf])) (fun f hf => htgt f (by simp [hf]))
    rw [processBatch_cons, if_neg h1, if_neg h3, if_pos h4, hrec]
    simp

lemma drop_range'_eq : ∀ (k s n : ℕ), (List.range' s n).drop k = List.range' (s + k) (n - k) := by
  intro k
  induction k with
  | zero => intro s n; simp
  | succ k ih =>
    intro s n
    match n with
    | 0 => simp
    | n + 1 =>
      rw [List.range'_succ, List.drop_succ_cons, ih (s + 1) n]
      congr 1 <;> omega

lemma runPoll_append {δ : Type} [DecidableEq δ] {cfg : PairsConfig}
    {start : ℕ} :
    ∀ (xs ys : List (Except Unit (List (RawEvent δ)))) (seen : List δ),
      runPoll cfg start seen (xs ++ ys) =
        ⟨(runPoll cfg start (runPoll cfg start seen xs).seen ys).seen,
         (runPoll cfg start seen xs).emitted ++
           (runPoll cfg start (runPoll cfg start seen xs).seen ys).emitted,
         (runPoll cfg start seen xs).cleaned ||
           (runPoll cfg start (runPoll cfg start seen xs).seen ys).cleaned⟩ := by
  intro xs
  induction xs with
  | nil => intro ys seen; simp [runPoll]
  | cons f fs ih =>
    intro ys seen
    simp only [List.cons_append, runPoll, List.append_eq]
    rw [ih ys (pollCycle cfg start seen f).seen]
    simp [Bool.or_assoc, List.append_assoc]

lemma evNat_txDigest (n : ℕ) : (evNat n).txDigest = n := rfl

lemma isTargetPool_evNat : isTargetPool pairsABC (evNat 0).pool_type = true := by
  decide

lemma pollCycle_block (j : ℕ) (hj : j ≤ 19) :
    pollCycle pairsABC 0 (List.range (50 * j)) (fetchBlock j) =
      ⟨List.range (50 * j + 50), (List.range' (50 * j) 50).map evNat, false⟩ := by
  have hfresh : ∀ e ∈ (List.range' (50 * j) 50).map evNat,
      e.txDigest ∉ List.range (50 * j) := by
    intro e he
    obtain ⟨n, hn, rfl⟩ := List.mem_map.mp he
    simp only [evNat_txDigest, List.mem_range]
    have := (List.mem_range'_1.mp hn).1
    omega
  have hmapdig : (((List.range' (50 * j) 50).map evNat).map RawEvent.txDigest)
      = List.range' (50 * j) 50 := by
    rw [List.map_map, show RawEvent.txDigest ∘ evNat = id from rfl, List.map_id]
  have hp := @processBatch_fresh ℕ _ pairsABC 0
    ((List.range' (50 * j) 50).map evNat) (List.range (50 * j))
    (by rw [hmapdig]; exact List.nodup_range' _ _)
    hfresh
    (by
      intro e he
      obtain ⟨n, _, rfl⟩ := List.mem_map.mp he
      simp [evNat])
    (by
      intro e he
      obtain ⟨n, _, rfl⟩ := List.mem_map.mp he
      exact isTargetPool_evNat)
  have hdata : (((List.range' (50 * j) 50).map evNat).reverse).reverse
      = (List.range' (50 * j) 50).map evNat := List.reverse_reverse _
  have hcomp : List.map (RawEvent.txDigest ∘ evNat) (List.range' (50 * j) 50)
      = List.range' (50 * j) 50 := by
    rw [show RawEvent.txDigest ∘ evNat = id from rfl, List.map_id]
  have hseen2 : List.range (50 * j) ++ List.range' (50 * j) 50 =
      List.range (50 * j + 50) := by
    rw [List.range_eq_range', List.range_eq_range']
    have h := List.range'_append_1 0 (50 * j) 50
    rw [Nat.zero_add] at h
    rw [h]
    congr 1
    omega
  have hne : (((List.range' (50 * j) 50).map evNat).reverse).isEmpty = false :=
    List.isEmpty_eq_false.mpr (List.ne_nil_of_length_pos (by simp))
  have hlt : ¬ 1000 < 50 * j + 50 := by omega
  rw [fetchBlock]
  simp [pollCycle, hne, hdata, hp, hcomp, hseen2, hlt]

lemma pollCycle_block20 :
    pollCycle pairsABC 0 (List.range 1000) (fetchBlock 20) =
      ⟨List.range' 550 500, (List.range' 1000 50).map evNat, true⟩ := by
  have hfresh : ∀ e ∈ (List.range' 1000 50).map evNat,
      e.txDigest ∉ List.range 1000 := by
    intro e he
    obtain ⟨n, hn, rfl⟩ := List.mem_map.mp he
    simp only [evNat_txDigest, List.mem_range]
    have := (List.mem_range'_1.mp hn).1
    omega
  have hmapdig : (((List.range' 1000 50).map evNat).map RawEvent.txDigest)
      = List.range' 1000 50 := by
    rw [List.map_map, show RawEvent.txDigest ∘ evNat = id from rfl, List.map_id]
  have hp := @processBatch_fresh ℕ _ pairsABC 0
    ((List.range' 1000 50).map evNat) (List.range 1000)
    (by rw [hmapdig]; exact List.nodup_range' _ _)
    hfresh
    (by
      intro e he
      obtain ⟨n, _, rfl⟩ := List.mem_map.mp he
      simp [evNat])
    (by
      intro e he
      obtain ⟨n, _, rfl⟩ := List.mem_map.mp he
      exact isTargetPool_evNat)
  have hcomp : List.map (RawEvent.txDigest ∘ evNat) (List.range' 1000 50)
      = List.range' 1000 50 := by
    rw [show RawEvent.txDigest ∘ evNat = id from rfl, List.map_id]
  have hseen2 : List.range 1000 ++ List.range' 1000 50 = List.range 1050 := by
    rw [List.range_eq_range', List.range_eq_range']
    have h := List.range'_append_1 0 1000 50
    rw [Nat.zero_add] at h
    rw [h]
  have hdata : (((List.range' 1000 50).map evNat).reverse).reverse
      = (List.range' 1000 50).map evNat := List.reverse_reverse _
  have hne : (((List.range' 1000 50).map evNat).reverse).isEmpty = false :=
    List.isEmpty_eq_false.mpr (List.ne_nil_of_length_pos (by simp))
  have hdrop2 : List.drop 550 (List.range 1050) = List.range' 550 500 := by
    rw [List.range_eq_range', drop_range'_eq]
  rw [fetchBlock]
  simp [pollCycle, hne, hdata, hp, hcomp, hseen2, hdrop2]

lemma blocks_run : ∀ k, k ≤ 20 →
    runPoll pairsABC 0 ([] : List ℕ) ((List.range k).map fetchBlock) =
      ⟨List.range (50 * k), (List.range (50 * k)).map evNat, false⟩ := by
  intro k
  induction k with
  | zero => intro _; simp [runPoll]
  | succ k ih =>
    intro hk
    have hk' : k ≤ 20 := Nat.le_of_succ_le hk
    have hk19 : k ≤ 19 := Nat.lt_succ_iff.mp (Nat.lt_of_lt_of_le (Nat.lt_succ_self k) hk)
    rw [List.range_succ, List.map_append, runPoll_append, ih hk']
    simp only [List.map_cons, List.map_nil]
    have hsingle : runPoll pairsABC 0 (List.range (50 * k)) [fetchBlock k] =
        ⟨List.range (50 * k + 50), (List.range' (50 * k) 50).map evNat, false⟩ := by
      rw [runPoll, pollCycle_block k hk19]
      simp [runPoll]
    rw [hsingle]
    have hmul : 50 * (k + 1) = 50 * k + 50 := by omega
    have hjoin : (List.range (50 * k)).map evNat ++ (List.range' (50 * k) 50).map evNat
        = (List.range (50 * k + 50)).map evNat := by
      rw [← List.map_append]
      congr 1
      rw [List.range_eq_range', List.range_eq_range']
      have h := List.range'_append_1 0 (50 * k) 50
      rw [Nat.zero_add] at h
      rw [h]
      congr 1
      omega
    simp [hmul, hjoin]

/-- Claim C1 counterexample: a concrete sequence of poll cycles, each
fetching at most 50 events, in which the same transaction digest is passed
to the stake callback twice.  Twenty-one cycles of fresh events grow the
seen set to 1050 digests, the cleanup then truncates it to the most recent
500 (evicting digest 0), and a final cycle replaying event 0 emits it a
second time — the digest was in the seen set once, yet it is reprocessed as
new after the eviction, refuting the unconditional at-most-once claim. -/
theorem emitted_twice_after_cleanup :
    countEmitted (runPoll pairsABC 0 ([] : List ℕ) ceFetches) 0 = 2 ∧
    ¬ countEmitted (runPoll pairsABC 0 ([] : List ℕ) ceFetches) 0 ≤ 1 := by
  have hfinal : pollCycle pairsABC 0 (List.range' 550 500) (Except.ok [evNat 0]) =
      ⟨List.range' 550 500 ++ [0], [evNat 0], false⟩ := by
    have hfresh : ∀ e ∈ [evNat 0], e.txDigest ∉ List.range' 550 500 := by
      intro e he
      simp only [List.mem_singleton] at he
      subst he
      simp [evNat_txDigest, List.mem_range'_1]
    have hp := @processBatch_fresh ℕ _ pairsABC 0
      [evNat 0] (List.range' 550 500)
      (by simp)
      hfresh
      (by intro e he; simp only [List.mem_singleton] at he; subst he; simp [evNat])
      (by intro e he; simp only [List.mem_singleton] at he; subst he
          exact isTargetPool_evNat)
    have hrev : ([evNat 0] : List (RawEvent ℕ)).reverse = [evNat 0] := rfl
    have hlen : ¬ 1000 < (List.range' 550 500 ++
        ([evNat 0].map RawEvent.txDigest : List ℕ)).length := by
      simp [List.length_range']
    simp [pollCycle, hrev, hp, hlen, evNat_txDigest]
  have hrun : runPoll pairsABC 0 ([] : List ℕ) ceFetches =
      ⟨List.range' 550 500 ++ [0],
       (List.range 1000).map evNat ++
         ((List.range' 1000 50).map evNat ++ [evNat 0]),
       true⟩ := by
    rw [ceFetches, runPoll_append, blocks_run 20 (by omega)]
    have h50 : 50 * 20 = 1000 := by omega
    rw [h50]
    have htail : runPoll pairsABC 0 (List.range 1000)
        [fetchBlock 20, Except.ok [evNat 0]] =
        ⟨List.range' 550 500 ++ [0],
         (List.range' 1000 50).map evNat ++ [evNat 0], true⟩ := by
      simp [runPoll, pollCycle_block20, hfinal]
    simp [htail]
  rw [hrun]
  have hcount : countEmitted
      (⟨List.range' 550 500 ++ [0],
        (List.range 1000).map evNat ++
          ((List.range' 1000 50).map evNat ++ [evNat 0]),
        true⟩ : CycleResult ℕ) 0 = 2 := by
    simp only [countEmitted, List.countP_append, List.countP_map]
    have c1 : (List.range 1000).countP
        ((fun e : RawEvent ℕ => e.txDigest == 0) ∘ evNat) = 1 := by
      have : ((fun e : RawEvent ℕ => e.txDigest == 0) ∘ evNat) =
          (fun n : ℕ => n == 0) := rfl
      rw [this]
      have h0 : (0 : ℕ) ∈ List.range 1000 := by simp
      simpa [List.count] using List.count_eq_one_of_mem (List.nodup_range 1000) h0
    have c2 : (List.range' 1000 50).countP
        ((fun e : RawEvent ℕ => e.txDigest == 0) ∘ evNat) = 0 := by
      have hc2 : ((fun e : RawEvent ℕ => e.txDigest == 0) ∘ evNat) =
          (fun n : ℕ => n == 0) := rfl
      rw [hc2, List.countP_eq_zero]
      intro n hn
      have hge := (List.mem_range'_1.mp hn).1
      simp only [beq_iff_eq]
      omega
    rw [c1, c2]
    rfl
  exact ⟨hcount, by omega⟩

/-- Witness for the amended claim C1: a run that replays one event over two
cycles, never triggers the cleanup, and emits the digest exactly once. -/
theorem emitted_at_most_once_witness :
    (runPoll pairsABC 0 ([] : List ℕ)
      [Except.ok [evNat 1], Except.ok [evNat 1]]).cleaned = false ∧
    countEmitted (runPoll pairsABC 0 ([] : List ℕ)
      [Except.ok [evNat 1], Except.ok [evNat 1]]) 1 ≤ 1 :=
  ⟨by decide, emitted_at_most_once_of_no_cleanup pairsABC 0 []
    [Except.ok [evNat 1], Except.ok [evNat 1]] 1 (by decide)⟩

/-- Claim C5: when a poll cycle ends with more than 1000 tracked digests,
the cleanup leaves exactly 500, and they are precisely the most recently
added ones: the seen set after the cycle is the final segment of length 500
of the insertion-ordered seen set produced by the loop, the oldest entries
being the ones discarded. -/
theorem seen_set_cleanup_bound {δ : Type} [DecidableEq δ]
    (cfg : PairsConfig) (start : ℕ) (seen : List δ)
    (data : List (RawEvent δ)) (hne : data ≠ [])
    (hbig : 1000 < (processBatch cfg start seen data.reverse).1.length) :
    (pollCycle cfg start seen (Except.ok data)).seen.length = 500 ∧
    (processBatch cfg start seen data.reverse).1.take
        ((processBatch cfg start seen data.reverse).1.length - 500) ++
      (pollCycle cfg start seen (Except.ok data)).seen =
      (processBatch cfg start seen data.reverse).1 := by
  have hD : data.isEmpty = false := List.isEmpty_eq_false.mpr hne
  have hcycle : (pollCycle cfg start seen (Except.ok data)).seen =
      (processBatch cfg start seen data.reverse).1.drop
        ((processBatch cfg start seen data.reverse).1.length - 500) := by
    simp [pollCycle, hD, hbig]
  constructor
  · rw [hcycle, List.length_drop]
    omega
  · rw [hcycle]
    exact List.take_append_drop _ _

/-- Witness for claim C5 at a concrete state: 1001 digests already tracked,
one fresh event arrives, the loop reaches 1002 digests, and the cleanup
retains exactly the last 500. -/
theorem seen_set_cleanup_bound_witness :
    (([⟨2000, 1, "a"⟩] : List (RawEvent ℕ)) ≠ []) ∧
    1000 < (processBatch pairsABC 0 (List.range 1001)
      ([⟨2000, 1, "a"⟩] : List (RawEvent ℕ)).reverse).1.length ∧
    ((pollCycle pairsABC 0 (List.range 1001)
        (Except.ok [⟨2000, 1, "a"⟩])).seen.length = 500 ∧
      (processBatch pairsABC 0 (List.range 1001)
          ([⟨2000, 1, "a"⟩] : List (RawEvent ℕ)).reverse).1.take
          ((processBatch pairsABC 0 (List.range 1001)
            ([⟨2000, 1, "a"⟩] : List (RawEvent ℕ)).reverse).1.length - 500) ++
        (pollCycle pairsABC 0 (List.range 1001)
          (Except.ok [⟨2000, 1, "a"⟩])).seen =
        (processBatch pairsABC 0 (List.range 1001)
          ([⟨2000, 1, "a"⟩] : List (RawEvent ℕ)).reverse).1) := by
  have h1 : (([⟨2000, 1, "a"⟩] : List (RawEvent ℕ)) ≠ []) := by decide
  have h2 : 1000 < (processBatch pairsABC 0 (List.range 1001)
      ([⟨2000, 1, "a"⟩] : List (RawEvent ℕ)).reverse).1.length := by
    have hp := @processBatch_fresh ℕ _ pairsABC 0
      [(⟨2000, 1, "a"⟩ : RawEvent ℕ)] (List.range 1001)
      (by simp)
      (by intro e he; simp only [List.mem_singleton] at he; subst he
          simp [List.mem_range])
      (by intro e he; simp only [List.mem_singleton] at he; subst he; simp)
      (by intro e he; simp only [List.mem_singleton] at he; subst he; decide)
    have hrev : (([⟨2000, 1, "a"⟩] : List (RawEvent ℕ))).reverse
        = [⟨2000, 1, "a"⟩] := rfl
    rw [hrev, hp]
    simp
  exact ⟨h1, h2,
    seen_set_cleanup_bound pairsABC 0 (List.range 1001) [⟨2000, 1, "a"⟩] h1 h2⟩

/-! ### Lemmas about the pool-type normalization -/

lemma removeAll0x_cons_ne {c : Char} (rest : List Char) (hc : c ≠ '0') :
    removeAll0x (c :: rest) = c :: removeAll0x rest := by
  match rest with
  | [] => rfl
  | c2 :: rest2 =>
    rw [removeAll0x, if_neg]
    intro h
    exact hc h.1

lemma removeAll0x_digit_append (l m : List Char)
    (hl : ∀ c ∈ l, c.isDigit = true)
    (hm : ∀ x, m.head? = some x → x ≠ 'x') :
    removeAll0x (l ++ m) = l ++ removeAll0x m := by
  induction l with
  | nil => simp
  | cons c tail ih =>
    have htail : ∀ x ∈ tail, x.isDigit = true := fun x hx => hl x (by simp [hx])
    have hstep : removeAll0x (c :: (tail ++ m)) = c :: removeAll0x (tail ++ m) := by
      match tail with
      | [] =>
        simp only [List.nil_append]
        match m with
        | [] => rfl
        | x :: ms =>
          rw [removeAll0x, if_neg]
          rintro ⟨-, hx⟩
          exact hm x rfl hx
      | t :: ts =>
        have ht : t.isDigit = true := htail t (by simp)
        rw [List.cons_append, removeAll0x, if_neg]
        rintro ⟨-, hx⟩
        rw [hx] at ht
        exact absurd ht (by decide)
    rw [List.cons_append, hstep, ih htail]
    simp

lemma fixToken_nil : fixToken [] = [] := rfl

lemma fixToken_cons_zero (ds : List Char) (h0 : ds ≠ [])
    (hd : ds.all Char.isDigit = true) :
    fixToken ('0' :: ds) = fixToken ds := by
  obtain ⟨c, tl, rfl⟩ := List.exists_cons_of_ne_nil h0
  have hc : c.isDigit = true := by
    simp only [List.all_cons, Bool.and_eq_true] at hd
    exact hd.1
  have htl : tl.all Char.isDigit = true := by
    simp only [List.all_cons, Bool.and_eq_true] at hd
    exact hd.2
  by_cases hcz : c = '0'
  · subst hcz
    have hcondL : ('0' :: '0' :: tl).all Char.isDigit = true ∧
        2 ≤ ('0' :: '0' :: tl).length ∧ ('0' :: '0' :: tl).head? = some '0' := by
      refine ⟨?_, by simp only [List.length_cons]; omega, rfl⟩
      simp [List.all_cons, htl]
    match tl with
    | [] => decide
    | t :: ts =>
      have hcondR : ('0' :: t :: ts).all Char.isDigit = true ∧
          2 ≤ ('0' :: t :: ts).length ∧ ('0' :: t :: ts).head? = some '0' := by
        refine ⟨?_, by simp only [List.length_cons]; omega, rfl⟩
        simpa [List.all_cons] using htl
      rw [fixToken, if_pos hcondL, fixToken, if_pos hcondR]
      have hdw : ('0' :: '0' :: t :: ts).dropWhile (fun c => c = '0') =
          ('0' :: t :: ts).dropWhile (fun c => c = '0') := by
        rw [List.dropWhile_cons_of_pos]
        simp
      rw [hdw]
  · have hdwL : ('0' :: c :: tl).dropWhile (fun x => x = '0') = c :: tl := by
      rw [List.dropWhile_cons_of_pos (by simp), List.dropWhile_cons_of_neg (by simpa)]
    have hcondL : ('0' :: c :: tl).all Char.isDigit = true ∧
        2 ≤ ('0' :: c :: tl).length ∧ ('0' :: c :: tl).head? = some '0' := by
      refine ⟨?_, by simp only [List.length_cons]; omega, rfl⟩
      simp [List.all_cons, hc, htl]
    have hcondR : ¬ ((c :: tl).all Char.isDigit = true ∧
        2 ≤ (c :: tl).length ∧ (c :: tl).head? = some '0') := by
      intro hcontra
      have := hcontra.2.2
      simp only [List.head?_cons, Option.some.injEq] at this
      exact hcz this
    rw [fixToken, if_pos hcondL, fixToken, if_neg hcondR]
    simp only [hdwL]
    simp

lemma stripZeroRunsAux_word_run (l : List Char)
    (hw : ∀ c ∈ l, isWordChar c = true) :
    ∀ (acc m : List Char),
      stripZeroRunsAux acc (l ++ m) = stripZeroRunsAux (l.reverse ++ acc) m := by
  induction l with
  | nil => intro acc m; simp
  | cons c tl ih =>
    intro acc m
    have hc : isWordChar c = true := hw c (by simp)
    rw [List.cons_append, stripZeroRunsAux, if_pos hc,
      ih (fun x hx => hw x (by simp [hx])) (c :: acc) m]
    congr 1
    simp

lemma stripZeroRunsAux_nonword {c : Char} (hc : isWordChar c = false)
    (acc rest : List Char) :
    stripZeroRunsAux acc (c :: rest) =
      fixToken acc.reverse ++ c :: stripZeroRunsAux [] rest := by
  rw [stripZeroRunsAux, if_neg]
  simp [hc]

lemma isWordChar_of_isDigit {c : Char} (h : c.isDigit = true) :
    isWordChar c = true := by
  simp [isWordChar, Char.isAlphanum, h]

lemma normalizeType_pad_numeric (ds r : List Char) (h0 : ds ≠ [])
    (hd : ds.all Char.isDigit = true) :
    normalizeType ⟨'0' :: 'x' :: '0' :: (ds ++ ':' :: ':' :: r)⟩ =
    normalizeType ⟨'0' :: 'x' :: (ds ++ ':' :: ':' :: r)⟩ := by
  have hddig : ∀ c ∈ ds, c.isDigit = true := by
    intro c hc
    exact (List.all_eq_true.mp hd) c hc
  have hdw : ∀ c ∈ ds, isWordChar c = true :=
    fun c hc => isWordChar_of_isDigit (hddig c hc)
  have hm : ∀ x, (':' :: ':' :: r).head? = some x → x ≠ 'x' := by
    intro x hx
    simp only [List.head?_cons, Option.some.injEq] at hx
    subst hx
    decide
  have hL : removeAll0x ('0' :: 'x' :: '0' :: (ds ++ ':' :: ':' :: r)) =
      '0' :: ds ++ ':' :: ':' :: removeAll0x r := by
    rw [removeAll0x, if_pos ⟨rfl, rfl⟩]
    have : ('0' :: ds) ++ (':' :: ':' :: r) = '0' :: (ds ++ ':' :: ':' :: r) := rfl
    rw [← this, removeAll0x_digit_append ('0' :: ds) (':' :: ':' :: r)
      (by intro c hc
          rcases List.mem_cons.mp hc with h | h
          · subst h; decide
          · exact hddig c h)
      hm]
    rw [removeAll0x_cons_ne _ (by decide), removeAll0x_cons_ne _ (by decide)]
  have hR : removeAll0x ('0' :: 'x' :: (ds ++ ':' :: ':' :: r)) =
      ds ++ ':' :: ':' :: removeAll0x r := by
    rw [removeAll0x, if_pos ⟨rfl, rfl⟩]
    rw [removeAll0x_digit_append ds (':' :: ':' :: r) hddig hm]
    rw [removeAll0x_cons_ne _ (by decide), removeAll0x_cons_ne _ (by decide)]
  have hcolon : isWordChar ':' = false := by decide
  have hstripL : stripZeroRuns ('0' :: ds ++ ':' :: ':' :: removeAll0x r) =
      fixToken ('0' :: ds) ++ ':' :: ':' :: stripZeroRuns (removeAll0x r) := by
    rw [stripZeroRuns]
    have hpush : ('0' :: ds) ++ (':' :: ':' :: removeAll0x r) =
        '0' :: ds ++ ':' :: ':' :: removeAll0x r := rfl
    rw [← hpush, stripZeroRunsAux_word_run ('0' :: ds)
      (by intro c hc
          rcases List.mem_cons.mp hc with h | h
          · subst h; decide
          · exact hdw c h)]
    rw [stripZeroRunsAux_nonword hcolon, stripZeroRunsAux_nonword hcolon]
    simp [fixToken_nil, stripZeroRuns]
  have hstripR : stripZeroRuns (ds ++ ':' :: ':' :: removeAll0x r) =
      fixToken ds ++ ':' :: ':' :: stripZeroRuns (removeAll0x r) := by
    rw [stripZeroRuns]
    rw [stripZeroRunsAux_word_run ds hdw]
    rw [stripZeroRunsAux_nonword hcolon, stripZeroRunsAux_nonword hcolon]
    simp [fixToken_nil, stripZeroRuns]
  show (⟨stripZeroRuns (removeAll0x ('0' :: 'x' :: '0' :: (ds ++ ':' :: ':' :: r)))⟩ : String) =
    (⟨stripZeroRuns (removeAll0x ('0' :: 'x' :: (ds ++ ':' :: ':' :: r)))⟩ : String)
  rw [hL, hR, hstripL, hstripR, fixToken_cons_zero ds h0 hd]

/-- Claim C4 counterexample: with the configured LP type `0xa::pair::LP`,
the same pool type written with one zero of padding, `0x0a::pair::LP`, is
rejected by the filter even though the normalization the spec describes
(strip the `0x` prefix, strip leading zeros) maps both spellings to the same
string.  The zero-strip of the code only fires on all-digit tokens, so
zero-padding in front of a hex letter is not neutralized, refuting
`accepted regardless of textual zero-padding differences`. -/
theorem pool_filter_zero_padding_counterexample :
    isTargetPool ⟨"0xa::pair::LP", "0xb::pair::LP", "0xc::pair::LP"⟩
      "0xa::pair::LP" = true ∧
    isTargetPool ⟨"0xa::pair::LP", "0xb::pair::LP", "0xc::pair::LP"⟩
      "0x0a::pair::LP" = false ∧
    specNormalize "0x0a::pair::LP" = specNormalize "0xa::pair::LP" := by
  decide

/-- Claim C4 (amended): the filter accepts a pool type exactly when its
code normalization (remove every `0x` occurrence, then strip leading zeros
of the maximal all-digit word runs) coincides with that of one of the three
configured LP type tags; zero-padding differences are neutralized only for
purely numeric address tokens — padding a numeric address with an extra
zero, as in `0x0…ds::…` versus `0x…ds::…` for a digit run `ds`, yields the
same normal form — but not for addresses containing hex letters. -/
theorem pool_filter_normalization (cfg : PairsConfig) (t : String)
    (ds r : List Char) (h0 : ds ≠ []) (hd : ds.all Char.isDigit = true) :
    (isTargetPool cfg t = true ↔
      (normalizeType t = normalizeType cfg.victorySuiLpType ∨
       normalizeType t = normalizeType cfg.victoryUsdcLpType ∨
       normalizeType t = normalizeType cfg.btcVictoryLpType)) ∧
    normalizeType ⟨'0' :: 'x' :: '0' :: (ds ++ ':' :: ':' :: r)⟩ =
      normalizeType ⟨'0' :: 'x' :: (ds ++ ':' :: ':' :: r)⟩ := by
  constructor
  · simp [isTargetPool, Bool.or_eq_true, beq_iff_eq, or_assoc]
  · exact normalizeType_pad_numeric ds r h0 hd

/-- Witness for the amended claim C4: the accepted characterization at a
concrete configuration, and the padded numeric address `0x02::…` agreeing
with `0x2::…`. -/
theorem pool_filter_normalization_witness :
    (isTargetPool ⟨"0x2::p", "b", "c"⟩ "0x2::p" = true ↔
      (normalizeType "0x2::p" = normalizeType "0x2::p" ∨
       normalizeType "0x2::p" = normalizeType "b" ∨
       normalizeType "0x2::p" = normalizeType "c")) ∧
    normalizeType ⟨'0' :: 'x' :: '0' :: (['2'] ++ ':' :: ':' :: [])⟩ =
      normalizeType ⟨'0' :: 'x' :: (['2'] ++ ':' :: ':' :: [])⟩ :=
  pool_filter_normalization ⟨"0x2::p", "b", "c"⟩ "0x2::p" ['2'] []
    (by decide) (by decide)

/-! ### The oracle arithmetic of claim C2 -/

/-- Claim C2 counterexample: at the inputs the claim lists literally —
`reserve0 = 1000000000000` (9 decimals), `reserve1 = 500000000`
(6 decimals), `totalSupply = 2000000000`, prices $2 and $1 — the pool value
is indeed $2500, but `totalSupply / 1e9 = 2`, so the per-LP price is
$1250 and an LP amount of `1000000000` (1.0 LP) is valued at $1250, not at
the claimed $1.25. -/
theorem lp_value_claim_counterexample :
    totalPoolValue 1000000000000 500000000 9 6 2 1 = 2500 ∧
    lpTokenPrice 1000000000000 500000000 2000000000 9 6 2 1 = 1250 ∧
    calculateLPValue 1000000000000 500000000 2000000000 9 6 2 1 1000000000 = 1250 ∧
    (1250 : ℚ) ≠ 5 / 4 := by
  refine ⟨?_, ?_, ?_, by norm_num⟩ <;>
    norm_num [totalPoolValue, lpTokenPrice, calculateLPValue, reserveDecimal]

/-- Claim C2 (amended): with `totalSupply = 2000000000000` — the value the
arithmetic of the claim (`per-LP price = 2500 / 2000`) actually requires,
2000 LP units in 9-decimal base units — the valuation computes pool value
$2500, per-LP price $1.25, and values an LP amount of `1000000000`
(1.0 LP) at $1.25. -/
theorem lp_value_example :
    totalPoolValue 1000000000000 500000000 9 6 2 1 = 2500 ∧
    lpTokenPrice 1000000000000 500000000 2000000000000 9 6 2 1 = 5 / 4 ∧
    calculateLPValue 1000000000000 500000000 2000000000000 9 6 2 1 1000000000 =
      5 / 4 := by
  refine ⟨?_, ?_, ?_⟩ <;>
    norm_num [totalPoolValue, lpTokenPrice, calculateLPValue, reserveDecimal]

/-! ### Lemmas about the leaderboard -/

lemma updateFirst_decomp {α : Type} (p : α → Bool) (f : α → α) :
    ∀ (l : List α) (a : α), l.find? p = some a →
      ∃ l1 l2, l = l1 ++ a :: l2 ∧ (∀ x ∈ l1, p x = false) ∧
        updateFirst p f l = l1 ++ f a :: l2 := by
  intro l
  induction l with
  | nil => intro a h; simp at h
  | cons e rest ih =>
    intro a h
    by_cases pe : p e = true
    · rw [List.find?_cons_of_pos _ pe] at h
      obtain rfl : e = a := by injection h
      exact ⟨[], rest, by simp, by simp, by simp [updateFirst, pe]⟩
    · rw [List.find?_cons_of_neg _ (by simpa using pe)] at h
      obtain ⟨l1, l2, hsplit, hl1, hupd⟩ := ih a h
      refine ⟨e :: l1, l2, by simp [hsplit], ?_, ?_⟩
      · intro x hx
        rcases List.mem_cons.mp hx with hx | hx
        · subst hx; simpa using pe
        · exact hl1 x hx
      · rw [updateFirst, if_neg pe, hupd]
        simp

lemma updateFirst_append_of_none {α : Type} (p : α → Bool) (f : α → α)
    (l1 l2 : List α) (h : ∀ x ∈ l1, p x = false) :
    updateFirst p f (l1 ++ l2) = l1 ++ updateFirst p f l2 := by
  induction l1 with
  | nil => simp
  | cons e rest ih =>
    rw [List.cons_append, updateFirst, if_neg (by simp [h e (by simp)])]
    rw [ih (fun x hx => h x (by simp [hx]))]
    simp

lemma find?_append_cons {α : Type} (p : α → Bool) (l1 : List α) (a : α)
    (l2 : List α) (h1 : ∀ x ∈ l1, p x = false) (ha : p a = true) :
    (l1 ++ a :: l2).find? p = some a := by
  induction l1 with
  | nil => simpa using List.find?_cons_of_pos _ ha
  | cons e rest ih =>
    rw [List.cons_append, List.find?_cons_of_neg _ (by simp [h1 e (by simp)])]
    exact ih (fun x hx => h1 x (by simp [hx]))

lemma countP_eq_zero_of_false {α : Type} {p : α → Bool} {l : List α}
    (h : ∀ x ∈ l, p x = false) : l.countP p = 0 :=
  List.countP_eq_zero.mpr (fun a ha => by simp [h a ha])

lemma lbKey_fields {w cid : String} {e : LBEntry} (h : lbKey w cid e = true) :
    e.wallet = w ∧ e.competitionId = cid := by
  simpa [lbKey, Bool.and_eq_true, beq_iff_eq] using h

lemma rank_pred_agree {w cid : String} {t : ℚ} {x : LBEntry}
    (hx : lbKey w cid x = false) :
    (x.competitionId == cid && decide (t < x.totalUSD)) =
      (!(x.wallet == w) && (x.competitionId == cid && decide (t < x.totalUSD))) := by
  by_cases hc : x.competitionId = cid
  · have hw : (x.wallet == w) = false := by
      by_cases hww : x.wallet = w
      · exfalso
        have : lbKey w cid x = true := by simp [lbKey, hww, hc]
        rw [this] at hx
        exact Bool.true_eq_false.mp hx
      · simpa using hww
    simp [hc, hw]
  · simp [hc]

lemma countP_congr_eq {α : Type} {p q : α → Bool} {l : List α}
    (h : ∀ a ∈ l, p a = q a) : l.countP p = l.countP q := by
  induction l with
  | nil => rfl
  | cons a t ih =>
    rw [List.countP_cons, List.countP_cons, h a (by simp),
      ih (fun x hx => h x (by simp [hx]))]

lemma rank_pred_self {w cid : String} {t : ℚ} {mid : LBEntry}
    (hc : mid.competitionId = cid) (ht : mid.totalUSD = t) :
    (mid.competitionId == cid && decide (t < mid.totalUSD)) = false ∧
    (!(mid.wallet == w) && (mid.competitionId == cid &&
      decide (t < mid.totalUSD))) = false := by
  constructor
  · simp [hc, ht, lt_irrefl]
  · simp [hc, ht, lt_irrefl]

/-- Claim C3: `updateLeaderboard` creates the entry with
`totalUSD = usdValue` when none exists for `(wallet, competitionId)`, adds
`usdValue` to the existing entry's total otherwise, and — provided the board
holds at most one entry per `(wallet, competitionId)` — returns `1 +` the
number of other entries of the same competition whose total strictly
exceeds the updated total of this wallet. -/
theorem updateLeaderboard_spec (db : List LBEntry) (w pn : String) (usd : ℚ)
    (dg cid : String) (huniq : db.countP (lbKey w cid) ≤ 1) :
    ((db.find? (lbKey w cid) = none →
        (updateLeaderboard db w pn usd dg cid).1 =
          db ++ [⟨w, usd, [⟨pn, usd, dg⟩], cid⟩])
    ∧ (∀ ex, db.find? (lbKey w cid) = some ex →
        ∃ l1 l2, db = l1 ++ ex :: l2 ∧
          (updateLeaderboard db w pn usd dg cid).1 =
            l1 ++ ({ ex with
              totalUSD := ex.totalUSD + usd,
              deposits := ex.deposits ++ [⟨pn, usd, dg⟩] } : LBEntry) :: l2)
    ∧ (updateLeaderboard db w pn usd dg cid).2 =
        1 + (updateLeaderboard db w pn usd dg cid).1.countP (fun e =>
          !(e.wallet == w) && (e.competitionId == cid &&
            decide (updatedTotal db w cid usd < e.totalUSD)))) := by
  match h : db.find? (lbKey w cid) with
  | none =>
    have hkeys : ∀ x ∈ db, lbKey w cid x = false := by
      intro x hx
      have := List.find?_eq_none.mp h x hx
      simpa using this
    have ht : updatedTotal db w cid usd = usd := by
      simp [updatedTotal, h]
    refine ⟨fun _ => ?_, fun ex hex => ?_, ?_⟩
    · simp [updateLeaderboard, h]
    · exact absurd hex (by simp)
    · simp only [updateLeaderboard, h, ht]
      rw [List.countP_append, List.countP_append]
      have hcong : db.countP (fun e =>
          e.competitionId == cid && decide (usd < e.totalUSD)) =
          db.countP (fun e => !(e.wallet == w) &&
            (e.competitionId == cid && decide (usd < e.totalUSD))) :=
        countP_congr_eq (fun x hx => rank_pred_agree (hkeys x hx))
      have hnew := @rank_pred_self w cid usd ⟨w, usd, [⟨pn, usd, dg⟩], cid⟩ rfl rfl
      rw [hcong]
      simp [hnew.1, hnew.2, List.countP_cons]
      omega
  | some ex =>
    obtain ⟨l1, l2, hsplit, hl1, hupd⟩ := updateFirst_decomp (lbKey w cid)
      (fun e => { e with
        totalUSD := ex.totalUSD + usd,
        deposits := e.deposits ++ [⟨pn, usd, dg⟩] }) db ex h
    have hkeyex : lbKey w cid ex = true := List.find?_some h
    obtain ⟨hw, hc⟩ := lbKey_fields hkeyex
    have hl2 : ∀ x ∈ l2, lbKey w cid x = false := by
      have hcount : db.countP (lbKey w cid) =
          l1.countP (lbKey w cid) + (1 + l2.countP (lbKey w cid)) := by
        rw [hsplit, List.countP_append, List.countP_cons_of_pos _ _ hkeyex]
        omega
      have hz1 : l1.countP (lbKey w cid) = 0 := countP_eq_zero_of_false hl1
      have hz2 : l2.countP (lbKey w cid) = 0 := by omega
      intro x hx
      have := List.countP_eq_zero.mp hz2 x hx
      simpa using this
    have ht : updatedTotal db w cid usd = ex.totalUSD + usd := by
      simp [updatedTotal, h]
    refine ⟨fun hnone => ?_, fun ex2 hex2 => ?_, ?_⟩
    · exact absurd hnone (by simp)
    · obtain rfl : ex = ex2 := by injection hex2
      refine ⟨l1, l2, hsplit, ?_⟩
      simp only [updateLeaderboard, h]
      exact hupd
    · simp only [updateLeaderboard, h, ht]
      rw [hupd]
      rw [List.countP_append, List.countP_append, List.countP_cons, List.countP_cons]
      set mid : LBEntry := { ex with
        totalUSD := ex.totalUSD + usd,
        deposits := ex.deposits ++ [⟨pn, usd, dg⟩] } with hmid
      have hmidc : mid.competitionId = cid := hc
      have hmidt : mid.totalUSD = ex.totalUSD + usd := rfl
      have hself := @rank_pred_self w cid (ex.totalUSD + usd) mid hmidc hmidt
      have hcong1 : l1.countP (fun e =>
          e.competitionId == cid && decide (ex.totalUSD + usd < e.totalUSD)) =
          l1.countP (fun e => !(e.wallet == w) &&
            (e.competitionId == cid && decide (ex.totalUSD + usd < e.totalUSD))) :=
        countP_congr_eq (fun x hx => rank_pred_agree (hl1 x hx))
      have hcong2 : l2.countP (fun e =>
          e.competitionId == cid && decide (ex.totalUSD + usd < e.totalUSD)) =
          l2.countP (fun e => !(e.wallet == w) &&
            (e.competitionId == cid && decide (ex.totalUSD + usd < e.totalUSD))) :=
        countP_congr_eq (fun x hx => rank_pred_agree (hl2 x hx))
      rw [hcong1, hcong2]
      simp [hself.1, hself.2]
      omega

/-- Witness for claim C3: on a board holding one other wallet with $10, a
first deposit of $3 by a new wallet creates its entry and ranks second. -/
theorem updateLeaderboard_spec_witness :
    (([⟨"w2", 10, [], "c"⟩] : List LBEntry).countP (lbKey "w1" "c") ≤ 1) ∧
    ((([⟨"w2", 10, [], "c"⟩] : List LBEntry).find? (lbKey "w1" "c") = none →
        (updateLeaderboard [⟨"w2", 10, [], "c"⟩] "w1" "P" 3 "tx" "c").1 =
          [⟨"w2", 10, [], "c"⟩] ++ [⟨"w1", 3, [⟨"P", 3, "tx"⟩], "c"⟩])
    ∧ (∀ ex, ([⟨"w2", 10, [], "c"⟩] : List LBEntry).find? (lbKey "w1" "c") = some ex →
        ∃ l1 l2, ([⟨"w2", 10, [], "c"⟩] : List LBEntry) = l1 ++ ex :: l2 ∧
          (updateLeaderboard [⟨"w2", 10, [], "c"⟩] "w1" "P" 3 "tx" "c").1 =
            l1 ++ ({ ex with
              totalUSD := ex.totalUSD + 3,
              deposits := ex.deposits ++ [⟨"P", 3, "tx"⟩] } : LBEntry) :: l2)
    ∧ (updateLeaderboard [⟨"w2", 10, [], "c"⟩] "w1" "P" 3 "tx" "c").2 =
        1 + (updateLeaderboard [⟨"w2", 10, [], "c"⟩] "w1" "P" 3 "tx" "c").1.countP
          (fun e => !(e.wallet == "w1") && (e.competitionId == "c" &&
            decide (updatedTotal [⟨"w2", 10, [], "c"⟩] "w1" "c" 3 < e.totalUSD)))) :=
  ⟨by decide, updateLeaderboard_spec [⟨"w2", 10, [], "c"⟩] "w1" "P" 3 "tx" "c"
    (by decide)⟩

lemma uniq_post {w cid : String} {db : List LBEntry} {ex : LBEntry}
    {l1 l2 : List LBEntry} (huniq : db.countP (lbKey w cid) ≤ 1)
    (hsplit : db = l1 ++ ex :: l2) (hkeyex : lbKey w cid ex = true)
    (hl1 : ∀ x ∈ l1, lbKey w cid x = false) :
    ∀ x ∈ l2, lbKey w cid x = false := by
  have hcount : db.countP (lbKey w cid) =
      l1.countP (lbKey w cid) + (1 + l2.countP (lbKey w cid)) := by
    rw [hsplit, List.countP_append, List.countP_cons_of_pos _ _ hkeyex]
    omega
  have hz1 : l1.countP (lbKey w cid) = 0 := countP_eq_zero_of_false hl1
  have hz2 : l2.countP (lbKey w cid) = 0 := by omega
  intro x hx
  have := List.countP_eq_zero.mp hz2 x hx
  simpa using this

lemma rank_count_mono (cid : String) (l : List LBEntry) (t1 t2 : ℚ)
    (hle : t1 ≤ t2) :
    l.countP (fun e => e.competitionId == cid && decide (t2 < e.totalUSD)) ≤
    l.countP (fun e => e.competitionId == cid && decide (t1 < e.totalUSD)) := by
  refine List.countP_mono_left ?_
  intro x hx hq
  simp only [Bool.and_eq_true, decide_eq_true_eq] at hq ⊢
  exact ⟨hq.1, lt_of_le_of_lt hle hq.2⟩

/-- Claim C9: applying two consecutive deposits of the same wallet to the
same competition (no other entry changing in between), with non-negative
USD values, yields a second rank that is never numerically worse than the
first, provided the board holds at most one entry per key. -/
theorem rank_never_worse (db : List LBEntry) (w pn1 pn2 : String)
    (v1 v2 : ℚ) (dg1 dg2 cid : String)
    (huniq : db.countP (lbKey w cid) ≤ 1) (h1 : 0 ≤ v1) (h2 : 0 ≤ v2) :
    (updateLeaderboard (updateLeaderboard db w pn1 v1 dg1 cid).1
        w pn2 v2 dg2 cid).2 ≤
      (updateLeaderboard db w pn1 v1 dg1 cid).2 := by
  match h : db.find? (lbKey w cid) with
  | none =>
    have hkeys : ∀ x ∈ db, lbKey w cid x = false := by
      intro x hx
      have := List.find?_eq_none.mp h x hx
      simpa using this
    have hkn0 : lbKey w cid (⟨w, v1, [⟨pn1, v1, dg1⟩], cid⟩ : LBEntry) = true := by
      simp [lbKey]
    have hfind2 : (db ++ [(⟨w, v1, [⟨pn1, v1, dg1⟩], cid⟩ : LBEntry)]).find?
        (lbKey w cid) = some ⟨w, v1, [⟨pn1, v1, dg1⟩], cid⟩ :=
      find?_append_cons (lbKey w cid) db _ [] hkeys hkn0
    have hupd2 : updateFirst (lbKey w cid)
        (fun e => { e with
          totalUSD := (⟨w, v1, [⟨pn1, v1, dg1⟩], cid⟩ : LBEntry).totalUSD + v2,
          deposits := e.deposits ++ [⟨pn2, v2, dg2⟩] })
        (db ++ [(⟨w, v1, [⟨pn1, v1, dg1⟩], cid⟩ : LBEntry)]) =
        db ++ [⟨w, v1 + v2, [⟨pn1, v1, dg1⟩] ++ [⟨pn2, v2, dg2⟩], cid⟩] := by
      rw [updateFirst_append_of_none _ _ db _ hkeys, updateFirst, if_pos hkn0]
    simp only [updateLeaderboard, h, hfind2, hupd2]
    rw [List.countP_append, List.countP_append]
    have hz1 : ([(⟨w, v1, [⟨pn1, v1, dg1⟩], cid⟩ : LBEntry)]).countP
        (fun e => e.competitionId == cid && decide (v1 < e.totalUSD)) = 0 := by
      simp [List.countP_cons]
    have hz2 : ([(⟨w, v1 + v2, [⟨pn1, v1, dg1⟩] ++ [⟨pn2, v2, dg2⟩], cid⟩ :
        LBEntry)]).countP (fun e => e.competitionId == cid &&
          decide ((⟨w, v1, [⟨pn1, v1, dg1⟩], cid⟩ : LBEntry).totalUSD + v2 <
            e.totalUSD)) = 0 := by
      simp [List.countP_cons]
    rw [hz1, hz2]
    have hm := rank_count_mono cid db v1 (v1 + v2) (by linarith)
    omega
  | some ex =>
    obtain ⟨l1, l2, hsplit, hl1, hupd⟩ := updateFirst_decomp (lbKey w cid)
      (fun e => { e with
        totalUSD := ex.totalUSD + v1,
        deposits := e.deposits ++ [⟨pn1, v1, dg1⟩] }) db ex h
    have hkeyex : lbKey w cid ex = true := List.find?_some h
    obtain ⟨hw, hc⟩ := lbKey_fields hkeyex
    have hl2 : ∀ x ∈ l2, lbKey w cid x = false :=
      uniq_post huniq hsplit hkeyex hl1
    have hkex1 : lbKey w cid ({ ex with
        totalUSD := ex.totalUSD + v1,
        deposits := ex.deposits ++ [⟨pn1, v1, dg1⟩] } : LBEntry) = true := by
      simp [lbKey, hw, hc]
    have hfind2 : (l1 ++ ({ ex with
        totalUSD := ex.totalUSD + v1,
        deposits := ex.deposits ++ [⟨pn1, v1, dg1⟩] } : LBEntry) :: l2).find?
          (lbKey w cid) = some { ex with
        totalUSD := ex.totalUSD + v1,
        deposits := ex.deposits ++ [⟨pn1, v1, dg1⟩] } :=
      find?_append_cons (lbKey w cid) l1 _ l2 hl1 hkex1
    simp only [updateLeaderboard, h, hupd, hfind2]
    have hupd2 : updateFirst (lbKey w cid)
        (fun e => { e with
          totalUSD := ({ ex with
            totalUSD := ex.totalUSD + v1,
            deposits := ex.deposits ++ [⟨pn1, v1, dg1⟩] } : LBEntry).totalUSD + v2,
          deposits := e.deposits ++ [⟨pn2, v2, dg2⟩] })
        (l1 ++ ({ ex with
          totalUSD := ex.totalUSD + v1,
          deposits := ex.deposits ++ [⟨pn1, v1, dg1⟩] } : LBEntry) :: l2) =
        l1 ++ ({ ex with
          totalUSD := ex.totalUSD + v1 + v2,
          deposits := (ex.deposits ++ [⟨pn1, v1, dg1⟩]) ++ [⟨pn2, v2, dg2⟩] } :
            LBEntry) :: l2 := by
      rw [updateFirst_append_of_none _ _ l1 _ hl1, updateFirst, if_pos hkex1]
    rw [hupd2]
    rw [List.countP_append, List.countP_append, List.countP_cons, List.countP_cons]
    have hm1 := rank_count_mono cid l1 (ex.totalUSD + v1) (ex.totalUSD + v1 + v2)
      (by linarith)
    have hm2 := rank_count_mono cid l2 (ex.totalUSD + v1) (ex.totalUSD + v1 + v2)
      (by linarith)
    simp only [lt_irrefl, decide_False, Bool.and_false, if_false]
    omega

/-- Witness for claim C9: wallet `w1` deposits $3 then $4 into one
competition while `w2` sits at $10; the first call ranks it second, the
second call keeps rank two, not worse. -/
theorem rank_never_worse_witness :
    (([⟨"w2", 10, [], "c"⟩] : List LBEntry).countP (lbKey "w1" "c") ≤ 1) ∧
    ((0 : ℚ) ≤ 3) ∧ ((0 : ℚ) ≤ 4) ∧
    ((updateLeaderboard (updateLeaderboard [⟨"w2", 10, [], "c"⟩]
        "w1" "P" 3 "tx1" "c").1 "w1" "P" 4 "tx2" "c").2 ≤
      (updateLeaderboard [⟨"w2", 10, [], "c"⟩] "w1" "P" 3 "tx1" "c").2) :=
  ⟨by decide, by norm_num, by norm_num,
    rank_never_worse [⟨"w2", 10, [], "c"⟩] "w1" "P" "P" 3 4 "tx1" "tx2" "c"
      (by decide) (by norm_num) (by norm_num)⟩

/-- Claim C8: when the valuation of a stake event is strictly below the
configured minimum-deposit floor, `handleStakeEvent` returns early: the
Leaderboard Ranker (`updateLeaderboard`) is not invoked for the event and no
deposit notification is sent. -/
theorem small_deposit_skips_ranker (minDepositUsd usd : ℚ)
    (competition : Option String) (ev : StakePayload) (st : AppState)
    (h : usd < minDepositUsd) :
    (handleStakeEvent minDepositUsd usd competition ev st).rankerRank = none ∧
    (handleStakeEvent minDepositUsd usd competition ev st).alert = none := by
  simp [handleStakeEvent, h]

/-- Witness for claim C8 at a concrete event: a $0.50 valuation under a $1
floor triggers neither the ranker nor the alert. -/
theorem small_deposit_skips_ranker_witness :
    ((1 : ℚ) / 2 < 1) ∧
    ((handleStakeEvent 1 (1 / 2) (some "c")
        ⟨"s", "P", "T", "5", 7, "tx"⟩ ⟨[], []⟩).rankerRank = none ∧
      (handleStakeEvent 1 (1 / 2) (some "c")
        ⟨"s", "P", "T", "5", 7, "tx"⟩ ⟨[], []⟩).alert = none) :=
  ⟨by norm_num, small_deposit_skips_ranker 1 (1 / 2) (some "c")
    ⟨"s", "P", "T", "5", 7, "tx"⟩ ⟨[], []⟩ (by norm_num)⟩

/-- Claim C10: when the valuation is strictly below the floor,
`handleStakeEvent` returns before any persistence call — the deposit
history (`addDeposit`), the leaderboard and the notifications are all left
exactly as they were: the whole result is the unchanged state with no alert
and no ranker call, so the raw deposit is not historically recorded. -/
theorem small_deposit_no_persistence (minDepositUsd usd : ℚ)
    (competition : Option String) (ev : StakePayload) (st : AppState)
    (h : usd < minDepositUsd) :
    handleStakeEvent minDepositUsd usd competition ev st = ⟨st, none, none⟩ := by
  simp [handleStakeEvent, h]

/-- Witness for claim C10: the $0.50 deposit leaves a nonempty prior state
untouched in full. -/
theorem small_deposit_no_persistence_witness :
    ((1 : ℚ) / 2 < 1) ∧
    handleStakeEvent 1 (1 / 2) (some "c") ⟨"s", "P", "T", "5", 7, "tx"⟩
      ⟨[⟨"w0", "P", "T", "9", 2, 3, "t0", "c"⟩], [⟨"w2", 10, [], "c"⟩]⟩ =
      ⟨⟨[⟨"w0", "P", "T", "9", 2, 3, "t0", "c"⟩], [⟨"w2", 10, [], "c"⟩]⟩,
        none, none⟩ :=
  ⟨by norm_num, small_deposit_no_persistence 1 (1 / 2) (some "c")
    ⟨"s", "P", "T", "5", 7, "tx"⟩
    ⟨[⟨"w0", "P", "T", "9", 2, 3, "t0", "c"⟩], [⟨"w2", 10, [], "c"⟩]⟩
    (by norm_num)⟩

/-- Witness for claim C6: with the bot started at time 10, an event stamped
5 is never emitted by the run, and a processed batch marks its digest as
seen. -/
theorem stale_events_never_emitted_witness :
    ((⟨1, 5, "a"⟩ : RawEvent ℕ).timestampMs ≤ 10) ∧
    ((⟨2, 5, "a"⟩ : RawEvent ℕ) ∈ ([⟨2, 5, "a"⟩] : List (RawEvent ℕ))) ∧
    ((⟨1, 5, "a"⟩ : RawEvent ℕ) ∉ (runPoll pairsABC 10 ([] : List ℕ)
        [Except.ok [⟨1, 5, "a"⟩]]).emitted ∧
      (⟨2, 5, "a"⟩ : RawEvent ℕ).txDigest ∈
        (processBatch pairsABC 10 ([] : List ℕ) [⟨2, 5, "a"⟩]).1) :=
  ⟨by decide, by decide,
    stale_events_never_emitted pairsABC 10 [] [] [Except.ok [⟨1, 5, "a"⟩]]
      [⟨2, 5, "a"⟩] ⟨1, 5, "a"⟩ ⟨2, 5, "a"⟩ (by decide) (by decide)⟩
